import Mathlib

/-!
Verification of the time-series normalization and forecasting subsystem of the
Seattle housing affordability pipeline (`src/pipeline.py`).

The pandas program is shallowly embedded: a wide rent table is a list of rows,
each holding a region id (`ZIP`) and a cell function from column positions to
nullable rational values; the long table is a list of observations.  Numeric
cells are modelled as `Option ℚ` (missing = `none`, mirroring NaN).  Calendar
dates are month indices (`12 * year + (month - 1)`) paired with a day of month.
Each pipeline stage of `prepare_zillow_timeseries` (melt, date parse and drop,
history gate, group-wise forward/backward fill, sort) and of `run_forecast`
(group gate, OLS fit, monthly projection) is translated as its own definition,
composed exactly in the source's order.
-/

namespace Pipeline

/-- A calendar date at day resolution: `mo` is the absolute month index
`12 * year + (monthOfYear - 1)`, `dy` the day of the month. -/
structure MDate where
  mo : Nat
  dy : Nat
deriving DecidableEq

/-- Date order (`sort_values` / `max` on a datetime column). -/
def dateLe (a b : MDate) : Prop :=
  a.mo < b.mo ∨ (a.mo = b.mo ∧ a.dy ≤ b.dy)

/-- Strict date order. -/
def dateLt (a b : MDate) : Prop :=
  a.mo < b.mo ∨ (a.mo = b.mo ∧ a.dy < b.dy)

instance : DecidableRel dateLe := fun a b =>
  decidable_of_iff (a.mo < b.mo ∨ (a.mo = b.mo ∧ a.dy ≤ b.dy)) Iff.rfl

instance : DecidableRel dateLt := fun a b =>
  decidable_of_iff (a.mo < b.mo ∨ (a.mo = b.mo ∧ a.dy < b.dy)) Iff.rfl

/-! ### Date-label parsing

`prepare_zillow_timeseries` keeps a column iff its label contains one of the
substrings `"/"`, `"-"`, `"20"` (line 162) and then converts the kept labels
with `pd.to_datetime(..., errors="coerce")`, dropping rows whose label did not
parse (lines 171-172).  The substring test is translated literally; the
datetime parser is modelled on the label shapes the pipeline feeds it
(ISO `YYYY-MM` and `YYYY-MM-DD` Zillow period labels), any other shape
coercing to `none` (NaT). -/

/-- Is `pre` a prefix of `l`? -/
def startsWithChars : List Char → List Char → Bool
  | [], _ => true
  | _ :: _, [] => false
  | a :: as, b :: bs => a == b && startsWithChars as bs

/-- Does `l` contain `needle` as a contiguous substring? -/
def hasSubChars (needle : List Char) : List Char → Bool
  | [] => needle.isEmpty
  | b :: bs => startsWithChars needle (b :: bs) || hasSubChars needle bs

/-- Line 162: `any(x in c for x in ["/", "-", "20"])`. -/
def dateColPattern (c : String) : Bool :=
  hasSubChars "/".data c.data || hasSubChars "-".data c.data ||
    hasSubChars "20".data c.data

/-- Split a character list at `'-'` separators. -/
def splitDash : List Char → List (List Char)
  | [] => [[]]
  | c :: t =>
    if c == '-' then [] :: splitDash t
    else
      match splitDash t with
      | [] => [[c]]
      | g :: gs => (c :: g) :: gs

/-- Parse a non-empty all-digit character list. -/
def digitsToNat : List Char → Option Nat
  | [] => none
  | cs => cs.foldl (fun acc c =>
      acc.bind (fun n => if c.isDigit then some (10 * n + (c.toNat - 48)) else none))
      (some 0)

/-- Gregorian leap-year test. -/
def isLeap (y : Nat) : Bool :=
  (y % 4 == 0 && y % 100 != 0) || y % 400 == 0

/-- Number of days of month `m` (1-12) in year `y`. -/
def daysInMonth (y m : Nat) : Nat :=
  if m == 2 then (if isLeap y then 29 else 28)
  else if m == 4 || m == 6 || m == 9 || m == 11 then 30
  else 31

/-- Model of `pd.to_datetime(label, errors="coerce")` on the period-label
shapes that occur (`YYYY-MM` and `YYYY-MM-DD`); everything else is NaT. -/
def parseDateChars (cs : List Char) : Option MDate :=
  match splitDash cs with
  | [y, m] => do
      let yv ← digitsToNat y
      let mv ← digitsToNat m
      if y.length == 4 && (1 ≤ mv && mv ≤ 12) then
        some ⟨12 * yv + (mv - 1), 1⟩
      else none
  | [y, m, d] => do
      let yv ← digitsToNat y
      let mv ← digitsToNat m
      let dv ← digitsToNat d
      if y.length == 4 && (1 ≤ mv && mv ≤ 12) && (1 ≤ dv && dv ≤ daysInMonth yv mv) then
        some ⟨12 * yv + (mv - 1), dv⟩
      else none
  | _ => none

/-- Parse a column label into a date. -/
def parseDate (s : String) : Option MDate := parseDateChars s.data

/-! ### Tables -/

/-- One row of the wide Zillow table: a region id and its cells, indexed by
column position (a pandas frame is rectangular, so a total function models a
row faithfully). -/
structure WideRow where
  zip : Nat
  cells : Nat → Option ℚ

/-- The wide region-by-period table: column labels and rows. -/
structure WideTable where
  cols : List String
  rows : List WideRow

/-- One melted record before date parsing: `ZIP | date-label | rent`. -/
structure LongRow where
  zip : Nat
  label : String
  rent : Option ℚ
deriving DecidableEq

/-- One long observation after date parsing: `ZIP | date | rent`. -/
structure Obs where
  zip : Nat
  date : MDate
  rent : Option ℚ
deriving DecidableEq

/-- Line 173: `long_df["date"].dt.year`. -/
def yearOf (d : MDate) : Nat := d.mo / 12

/-- Line 174: `long_df["date"].dt.month`. -/
def monthOfYear (d : MDate) : Nat := d.mo % 12 + 1

/-! ### Series Builder (`prepare_zillow_timeseries`, lines 157-184) -/

/-- Line 162: the period columns, as (position, label) pairs in column order. -/
def dateCols (cols : List String) : List (Nat × String) :=
  cols.enum.filter (fun p => dateColPattern p.2)

/-- Lines 164-169: `melt` pivots each region-by-period cell into one long
record; pandas stacks one block per value column, in column order, each block
listing the rows in row order. -/
def melt (tbl : WideTable) : List LongRow :=
  (dateCols tbl.cols).flatMap (fun p =>
    tbl.rows.map (fun r => ⟨r.zip, p.2, r.cells p.1⟩))

/-- Lines 171-172: parse the labels, dropping records with unparseable labels
(`errors="coerce"` then `dropna(subset=["date"])`). -/
def parseStage (l : List LongRow) : List Obs :=
  l.filterMap (fun r => (parseDate r.label).map (fun d => ⟨r.zip, d, r.rent⟩))

/-- The number of non-missing rent values of region `z` in the long table
(`g["rent"].notna().sum()` for the group of `z`). -/
def notnaCount (l : List Obs) (z : Nat) : Nat :=
  (l.filter (fun o => o.zip == z && o.rent.isSome)).length

/-- Line 177: `groupby("ZIP").filter(lambda g: g["rent"].notna().sum() >=
min_months)` keeps exactly the rows of regions with enough non-missing
observations, in their original order. -/
def gateStage (l : List Obs) (min_months : ℤ) : List Obs :=
  l.filter (fun o => decide (min_months ≤ (notnaCount l o.zip : ℤ)))

/-- Carrying step of a forward fill: `olast a b` is `b` unless `b` is missing, in which case `a`: the carrying
step of a forward fill. -/
def olast (a b : Option ℚ) : Option ℚ := if b.isSome then b else a

/-- Forward fill (`Series.ffill`) with carried value `acc`: each missing entry is replaced by
the most recent preceding non-missing value. -/
def ffillFrom (acc : Option ℚ) : List (Option ℚ) → List (Option ℚ)
  | [] => []
  | x :: t => olast acc x :: ffillFrom (olast acc x) t

/-- First non-missing value of a sequence, if any. -/
def firstSome : List (Option ℚ) → Option ℚ
  | [] => none
  | x :: t => olast (firstSome t) x

/-- Last (most recent) non-missing value of a sequence, if any. -/
def lastSome (l : List (Option ℚ)) : Option ℚ := l.foldl olast none

/-- Backward fill (`Series.bfill`): each missing entry is replaced by the nearest following
non-missing value. -/
def bfill : List (Option ℚ) → List (Option ℚ)
  | [] => []
  | x :: t => firstSome (x :: t) :: bfill t

/-- Line 180's lambda: `s.ffill().bfill()`. -/
def ffillbfill (s : List (Option ℚ)) : List (Option ℚ) :=
  bfill (ffillFrom none s)

/-- The rent column of region `z`'s group, in the table's current row order. -/
def groupRents (l : List Obs) (z : Nat) : List (Option ℚ) :=
  (l.filter (fun o => o.zip == z)).map (fun o => o.rent)

/-- Replace the rents of `l` by the values of `ρ`, positionally. -/
def setRents (l : List Obs) (ρ : List (Option ℚ)) : List Obs :=
  List.zipWith (fun o v => { o with rent := v }) l ρ

/-- Line 180, `groupby("ZIP")["rent"].transform(...)`: each row receives the
entry of its group's filled rent sequence at the row's rank within its group.
`orig` is the whole table (fixing the groups), `past` the rows already
processed. -/
def fillGroupsFrom (orig : List Obs) (past : List Obs) : List Obs → List Obs
  | [] => []
  | o :: t =>
    { o with
      rent := ((ffillbfill (groupRents orig o.zip))[past.countP (fun p => p.zip == o.zip)]?).getD
        none }
      :: fillGroupsFrom orig (past ++ [o]) t

/-- Line 180: group-wise forward fill then backward fill, aligned back to the
table's row order. -/
def fillGroups (l : List Obs) : List Obs := fillGroupsFrom l [] l

/-- Row order of line 182's `sort_values(["ZIP", "date"])`. -/
def obsLe (a b : Obs) : Prop :=
  a.zip < b.zip ∨ (a.zip = b.zip ∧ dateLe a.date b.date)

instance : DecidableRel obsLe := fun a b =>
  decidable_of_iff (a.zip < b.zip ∨ (a.zip = b.zip ∧ dateLe a.date b.date)) Iff.rfl

instance : IsTotal Obs obsLe where
  total a b := by unfold obsLe dateLe; omega

instance : IsTrans Obs obsLe where
  trans a b c h1 h2 := by unfold obsLe dateLe at h1 h2 ⊢; omega

/-- Line 182: sort by region, then date. -/
def sortStage (l : List Obs) : List Obs := List.insertionSort obsLe l

/-- The Series Builder `prepare_zillow_timeseries` (lines 157-184): melt the wide table, parse
and drop date labels, gate on `min_months` non-missing observations per
region, fill gaps group-wise (forward then backward, in the current row
order), and sort by region and date. -/
def prepare_zillow_timeseries (tbl : WideTable) (min_months : ℤ) : List Obs :=
  sortStage (fillGroups (gateStage (parseStage (melt tbl)) min_months))

/-- The *claim's* chronological gap-fill rule, stated from the spec's words:
for a missing cell of a region at period `d`, take the value of the
chronologically most recent earlier period with a non-missing original value,
and if there is none, the value of the chronologically nearest later period
with one.  `g` is the region's original (parsed, pre-fill) observations. -/
def chronoExpected (g : List Obs) (d : MDate) : Option ℚ :=
  olast
    (firstSome ((g.filter (fun o => decide (dateLt d o.date))).map (fun o => o.rent)))
    (lastSome ((g.filter (fun o => decide (dateLt o.date d))).map (fun o => o.rent)))

/-! ### Trend Forecaster (`run_forecast`, lines 185-219) -/

/-- One output record: `ZIP | date | forecast_rent` (lines 209-213). -/
structure ForecastRow where
  zip : Nat
  date : MDate
  forecast_rent : ℚ
deriving DecidableEq

/-- The distinct region keys of the long table, ascending: `df.groupby("ZIP")`
iterates one group per distinct key, in sorted key order. -/
def uniqueZips (df : List Obs) : List Nat :=
  List.insertionSort (· ≤ ·) (df.map (fun o => o.zip)).dedup

/-- The group of region `z`: its rows in the table's row order. -/
def groupOf (df : List Obs) (z : Nat) : List Obs :=
  df.filter (fun o => o.zip == z)

/-- The group's rent column as regression targets; `none` if any value is
missing (a NaN reaching `sklearn`'s `fit` raises, see `forecastGroup`). -/
def allRents : List Obs → Option (List ℚ)
  | [] => some []
  | o :: t =>
    match o.rent, allRents t with
    | some v, some vs => some (v :: vs)
    | _, _ => none

/-- Line 204: the latest date of the group, `group["date"].max()`. -/
def maxDateOf (g : List Obs) : MDate :=
  g.foldl (fun a o => if dateLe a o.date then o.date else a) ⟨0, 0⟩

/-- Closed-form ordinary least squares of `LinearRegression().fit(X, y)` with
`X = t = 0, 1, ..., n-1` (lines 195-200): returns `(slope, intercept)`.  The
degenerate branch (`n < 2`, zero denominator) is unreachable behind the
24-observation gate. -/
def olsFit (ys : List ℚ) : ℚ × ℚ :=
  let n : ℚ := (ys.length : ℚ)
  let ts : List ℚ := (List.range ys.length).map (fun i : ℕ => (i : ℚ))
  let st : ℚ := ts.sum
  let sy : ℚ := ys.sum
  let stt : ℚ := (ts.map (fun t => t * t)).sum
  let sty : ℚ := (List.zipWith (fun t y => t * y) ts ys).sum
  let d : ℚ := n * stt - st * st
  if d = 0 then (0, 0)
  else
    let slope := (n * sty - st * sy) / d
    (slope, (sy - slope * st) / n)

/-- The per-region body of `run_forecast`'s loop (lines 190-213): skip groups
shorter than 24 rows (`some []`); otherwise fit the trend over
`t = 0..n-1`, project it at `t = n, ..., n + years*12 - 1`, and stamp the
rows with the `years*12` consecutive month-begin dates that follow the
group's latest date (`pd.date_range(max + MonthBegin, periods, freq="MS")`).
`none` models the `ValueError` sklearn raises if a NaN reaches the fit. -/
def forecastGroup (z : Nat) (g : List Obs) (years : Nat) : Option (List ForecastRow) :=
  if g.length < 24 then some []
  else
    match allRents g with
    | none => none
    | some ys =>
      let fit := olsFit ys
      let n := g.length
      let startMo := (maxDateOf g).mo + 1
      some ((List.range (years * 12)).map (fun k =>
        ⟨z, ⟨startMo + k, 1⟩, fit.1 * ((n : ℚ) + (k : ℚ)) + fit.2⟩))

/-- The loop of `run_forecast` over the sorted distinct keys, concatenating
the per-region forecasts; the first sklearn error aborts the run. -/
def runForecastAux (df : List Obs) (years : Nat) : List Nat → Option (List ForecastRow)
  | [] => some []
  | z :: zs =>
    match forecastGroup z (groupOf df z) years, runForecastAux df years zs with
    | some rs, some rest => some (rs ++ rest)
    | _, _ => none

/-- The Trend Forecaster `run_forecast(df, years=5)` (lines 185-219): one forecast row per region
with at least 24 observations and per projected month. -/
def run_forecast (df : List Obs) (years : Nat) : Option (List ForecastRow) :=
  runForecastAux df years (uniqueZips df)

/-! ### Region Merger mutation and `main`'s forecasting path

`clean_and_merge` (lines 110-132) begins with
`zillow["MedianRent"] = zillow[zillow.columns[9:]].median(axis=1)`, which
adds a summary column to the caller's wide frame in place before the local
name is rebound; the income and burden arguments are only read.  `main`
(lines 222-240) then passes that same wide frame — not
`prepare_zillow_timeseries`' output — to `run_forecast`. -/

/-- Median of a non-empty list (`DataFrame.median`): middle of the sorted
values, or the mean of the two middle ones. -/
def medianOf (xs : List ℚ) : ℚ :=
  let s := List.insertionSort (· ≤ ·) xs
  let n := s.length
  if n % 2 = 1 then (s.get? (n / 2)).getD 0
  else (((s.get? (n / 2 - 1)).getD 0) + ((s.get? (n / 2)).getD 0)) / 2

/-- Row-wise `median(axis=1)` over nullable cells: NaNs are skipped, and an
all-missing row yields NaN. -/
def rowMedian (vals : List (Option ℚ)) : Option ℚ :=
  let xs := vals.filterMap id
  if xs.isEmpty then none else some (medianOf xs)

/-- The in-place effect of line 114 on one row: a new cell at position
`ncols` holding the median of the cells at positions 9 and on. -/
def addMedianCell (ncols : Nat) (r : WideRow) : WideRow :=
  { zip := r.zip,
    cells := fun i =>
      if i = ncols then rowMedian (((List.range ncols).drop 9).map r.cells)
      else r.cells i }

/-- The zillow frame as `clean_and_merge` leaves it: its `MedianRent` column
appended (lines 113-114 mutate the argument; the later statements build new
frames). -/
def clean_and_merge_zillow_after (tbl : WideTable) : WideTable :=
  { cols := tbl.cols ++ ["MedianRent"],
    rows := tbl.rows.map (addMedianCell tbl.cols.length) }

/-- Row multiplicity of region `z` in the wide table. -/
def wideZipCount (tbl : WideTable) (z : Nat) : Nat :=
  (tbl.rows.filter (fun r => r.zip == z)).length

/-- Line 238: `main` applies `run_forecast` to the *wide* zillow frame, so
`groupby("ZIP")` groups the wide rows: the regions whose groups survive the
`shape[0] < 24` gate and reach the fitting step are those whose wide-row
multiplicity is at least 24 (for all others the loop just `continue`s, so
they contribute no forecast rows). -/
def mainFitRegions (tbl : WideTable) : List Nat :=
  (List.insertionSort (· ≤ ·) (tbl.rows.map (fun r => r.zip)).dedup).filter
    (fun z => decide (24 ≤ wideZipCount tbl z))

/-! ### Concrete fixtures used by witnesses and counterexamples -/

/-- A one-region table: January 5, February missing, March 9. -/
def tblA : WideTable :=
  { cols := ["ZIP", "Metro", "2015-01-31", "2015-02-28", "2015-03-31"],
    rows := [⟨7, fun i =>
      if i = 2 then some 5 else if i = 3 then none else if i = 4 then some 9 else none⟩] }

/-- A one-region table whose period columns are *not* in chronological order:
March (missing), January 5, February 7. -/
def tblX : WideTable :=
  { cols := ["2015-03-31", "2015-01-31", "2015-02-28"],
    rows := [⟨1, fun i =>
      if i = 0 then none else if i = 1 then some 5 else if i = 2 then some 7 else none⟩] }

/-- A one-region table whose only observation is missing. -/
def tblB : WideTable :=
  { cols := ["2015-01"], rows := [⟨3, fun _ => none⟩] }

/-- A duplicated region together with two labels parsing to the same date. -/
def tblF : WideTable :=
  { cols := ["2015-01", "2015-01-01"],
    rows := [⟨1, fun _ => some 10⟩, ⟨1, fun _ => some 20⟩] }

/-- Twelve consecutive monthly labels. -/
def colsD : List String :=
  ["2015-01-31", "2015-02-28", "2015-03-31", "2015-04-30", "2015-05-31", "2015-06-30",
   "2015-07-31", "2015-08-31", "2015-09-30", "2015-10-31", "2015-11-30", "2015-12-31"]

/-- A one-region table with 12 non-missing observations. -/
def tblD : WideTable :=
  { cols := colsD, rows := [⟨4, fun i => if i < 12 then some 3 else none⟩] }

/-- Thirty consecutive monthly labels. -/
def colsE : List String :=
  ["2015-01", "2015-02", "2015-03", "2015-04", "2015-05", "2015-06",
   "2015-07", "2015-08", "2015-09", "2015-10", "2015-11", "2015-12",
   "2016-01", "2016-02", "2016-03", "2016-04", "2016-05", "2016-06",
   "2016-07", "2016-08", "2016-09", "2016-10", "2016-11", "2016-12",
   "2017-01", "2017-02", "2017-03", "2017-04", "2017-05", "2017-06"]

/-- A one-region table with 30 non-missing observations, constant rent 100. -/
def tblE : WideTable :=
  { cols := colsE, rows := [⟨5, fun i => if i < 30 then some 100 else none⟩] }

/-- A 24-observation constant cleaned series for region 1. -/
def dfC : List Obs :=
  (List.range 24).map (fun k => ⟨1, ⟨12 * 2015 + k, 28⟩, some 10⟩)

/-- A 30-observation cleaned series for region 1 with rent exactly
`100 + 5*t` at time index `t`. -/
def g30 : List Obs :=
  (List.range 30).map (fun t => ⟨1, ⟨12 * 2015 + t, 28⟩, some (100 + 5 * (t : ℚ))⟩)

/-! ## Lemmas about the gap-fill combinators -/

theorem olast_none (a : Option ℚ) : olast a none = a := rfl

theorem olast_some (a : Option ℚ) (v : ℚ) : olast a (some v) = some v := rfl

theorem olast_isSome {a b : Option ℚ} : (olast a b).isSome ↔ b.isSome ∨ a.isSome := by
  cases b <;> simp [olast]

theorem length_ffillFrom (acc : Option ℚ) (s : List (Option ℚ)) :
    (ffillFrom acc s).length = s.length := by
  induction s generalizing acc with
  | nil => rfl
  | cons x t ih => simp [ffillFrom, ih]

theorem length_bfill (s : List (Option ℚ)) : (bfill s).length = s.length := by
  induction s with
  | nil => rfl
  | cons x t ih => simp [bfill, ih]

theorem length_ffillbfill (s : List (Option ℚ)) : (ffillbfill s).length = s.length := by
  rw [ffillbfill, length_bfill, length_ffillFrom]

theorem lastSome_append_singleton (l : List (Option ℚ)) (x : Option ℚ) :
    lastSome (l ++ [x]) = olast (lastSome l) x := by
  rw [lastSome, lastSome, List.foldl_append]
  rfl

theorem ffillFrom_getElem? (acc : Option ℚ) (s : List (Option ℚ)) (i : ℕ)
    (h : i < s.length) :
    (ffillFrom acc s)[i]? = some (List.foldl olast acc (s.take (i + 1))) := by
  induction s generalizing acc i with
  | nil => simp at h
  | cons x t ih =>
    cases i with
    | zero => simp [ffillFrom]
    | succ j =>
      have hj : j < t.length := by simpa using h
      simp only [ffillFrom, List.getElem?_cons_succ, List.take_succ_cons, List.foldl_cons]
      exact ih (olast acc x) j hj

theorem ffillFrom_drop (acc : Option ℚ) (s : List (Option ℚ)) (k : ℕ) :
    (ffillFrom acc s).drop k = ffillFrom (List.foldl olast acc (s.take k)) (s.drop k) := by
  induction s generalizing acc k with
  | nil => simp [ffillFrom]
  | cons x t ih =>
    cases k with
    | zero => rfl
    | succ j =>
      simp only [ffillFrom, List.drop_succ_cons, List.take_succ_cons, List.foldl_cons]
      exact ih (olast acc x) j

theorem firstSome_ffillFrom (s : List (Option ℚ)) :
    firstSome (ffillFrom none s) = firstSome s := by
  induction s with
  | nil => rfl
  | cons x t ih =>
    cases x with
    | some v => rfl
    | none =>
      show firstSome (olast none none :: ffillFrom (olast none none) t) = firstSome (none :: t)
      simp only [olast_none]
      show olast (firstSome (ffillFrom none t)) none = olast (firstSome t) none
      rw [olast_none, olast_none, ih]

theorem bfill_getElem? (s : List (Option ℚ)) (i : ℕ) (h : i < s.length) :
    (bfill s)[i]? = some (firstSome (s.drop i)) := by
  induction s generalizing i with
  | nil => simp at h
  | cons x t ih =>
    cases i with
    | zero => simp [bfill]
    | succ j =>
      have hj : j < t.length := by simpa using h
      simpa [bfill] using ih j hj

/-- Pointwise description of `ffill` followed by `bfill`: position `i` holds
its own value if present, else the last non-missing value before it, else the
first non-missing value after it. -/
theorem ffillbfill_getElem? (s : List (Option ℚ)) (i : ℕ) (h : i < s.length) :
    (ffillbfill s)[i]? =
      some (olast (firstSome (s.drop (i + 1))) (lastSome (s.take (i + 1)))) := by
  have h' : i < (ffillFrom none s).length := by rwa [length_ffillFrom]
  rw [ffillbfill, bfill_getElem? _ i h', ffillFrom_drop none s i,
    List.drop_eq_getElem_cons h]
  have hA : olast (List.foldl olast none (s.take i)) s[i] = lastSome (s.take (i + 1)) := by
    have : s.take (i + 1) = s.take i ++ [s[i]] := by
      rw [List.take_succ]
      simp [List.getElem?_eq_getElem h]
    rw [this, lastSome_append_singleton]
    rfl
  show some (firstSome (ffillFrom (List.foldl olast none (s.take i)) (s[i] :: s.drop (i + 1)))) = _
  rw [show ffillFrom (List.foldl olast none (s.take i)) (s[i] :: s.drop (i + 1))
      = olast (List.foldl olast none (s.take i)) s[i]
        :: ffillFrom (olast (List.foldl olast none (s.take i)) s[i]) (s.drop (i + 1)) from rfl,
    hA]
  cases hc : lastSome (s.take (i + 1)) with
  | some v => rfl
  | none =>
    show some (olast (firstSome (ffillFrom none (s.drop (i + 1)))) none) = _
    rw [olast_none, olast_none, firstSome_ffillFrom]

theorem foldl_olast_isSome_acc {s : List (Option ℚ)} {acc : Option ℚ}
    (h : acc.isSome) : (List.foldl olast acc s).isSome := by
  induction s generalizing acc with
  | nil => exact h
  | cons x t ih =>
    refine ih ?_
    cases x with
    | some v => simp [olast]
    | none => simpa [olast]

theorem foldl_olast_isSome_of_mem {x : Option ℚ} :
    ∀ (s : List (Option ℚ)) (acc : Option ℚ), x ∈ s → x.isSome →
      (List.foldl olast acc s).isSome := by
  intro s
  induction s with
  | nil => intro acc hx _; simp at hx
  | cons y t ih =>
    intro acc hx hsome
    rcases List.mem_cons.1 hx with rfl | hmem
    · show (List.foldl olast (olast acc x) t).isSome
      refine foldl_olast_isSome_acc ?_
      exact olast_isSome.2 (Or.inl hsome)
    · exact ih (olast acc y) hmem hsome

theorem lastSome_isSome_of_mem {s : List (Option ℚ)} {x : Option ℚ}
    (hx : x ∈ s) (h : x.isSome) : (lastSome s).isSome :=
  foldl_olast_isSome_of_mem s none hx h

theorem firstSome_isSome_of_mem {s : List (Option ℚ)} {x : Option ℚ}
    (hx : x ∈ s) (h : x.isSome) : (firstSome s).isSome := by
  induction s with
  | nil => simp at hx
  | cons y t ih =>
    rcases List.mem_cons.1 hx with rfl | hmem
    · cases x with
      | some v => simp [firstSome, olast]
      | none => simp at h
    · cases y with
      | some v => simp [firstSome, olast]
      | none =>
        show (olast (firstSome t) none).isSome
        rw [olast_none]
        exact ih hmem

/-- A sequence with at least one non-missing entry is fully populated after
forward fill then backward fill. -/
theorem ffillbfill_forall_isSome {s : List (Option ℚ)}
    (h : ∃ x ∈ s, x.isSome) (y : Option ℚ) (hy : y ∈ ffillbfill s) : y.isSome := by
  obtain ⟨i, hi⟩ := List.mem_iff_getElem?.1 hy
  have hlen : i < s.length := by
    have : i < (ffillbfill s).length := by
      by_contra hge
      rw [List.getElem?_eq_none (le_of_not_lt hge)] at hi
      simp at hi
    rwa [length_ffillbfill] at this
  rw [ffillbfill_getElem? s i hlen] at hi
  obtain ⟨x, hxmem, hxsome⟩ := h
  have hsplit : x ∈ s.take (i + 1) ∨ x ∈ s.drop (i + 1) := by
    rw [← List.mem_append, List.take_append_drop]
    exact hxmem
  have : (olast (firstSome (s.drop (i + 1))) (lastSome (s.take (i + 1)))).isSome := by
    rcases hsplit with hin | hin
    · exact olast_isSome.2 (Or.inl (lastSome_isSome_of_mem hin hxsome))
    · exact olast_isSome.2 (Or.inr (firstSome_isSome_of_mem hin hxsome))
  exact (Option.some_inj.1 hi) ▸ this

/-! ## Lemmas about the group-wise transform and the gate -/

theorem setRents_nil (ρ : List (Option ℚ)) : setRents [] ρ = [] := rfl

theorem setRents_cons (o : Obs) (l : List Obs) (v : Option ℚ) (ρ : List (Option ℚ)) :
    setRents (o :: l) (v :: ρ) = { o with rent := v } :: setRents l ρ := rfl

theorem setRents_getElem? (l : List Obs) (ρ : List (Option ℚ)) (i : ℕ) :
    (setRents l ρ)[i]? =
      (l[i]?).bind (fun o => (ρ[i]?).map (fun v => { o with rent := v })) := by
  induction l generalizing ρ i with
  | nil => simp [setRents]
  | cons o t ih =>
    cases ρ with
    | nil =>
      simp only [setRents, List.zipWith_nil_right]
      cases i <;> simp
    | cons v ρ' =>
      cases i with
      | zero => simp [setRents_cons]
      | succ j => simpa [setRents_cons] using ih ρ' j

theorem fillGroupsFrom_map_zip (orig : List Obs) :
    ∀ (rest past : List Obs),
      (fillGroupsFrom orig past rest).map (fun o => o.zip) = rest.map (fun o => o.zip) := by
  intro rest
  induction rest with
  | nil => intro past; rfl
  | cons o t ih => intro past; simpa [fillGroupsFrom] using ih (past ++ [o])

theorem fillGroups_map_zip (l : List Obs) :
    (fillGroups l).map (fun o => o.zip) = l.map (fun o => o.zip) :=
  fillGroupsFrom_map_zip l l []

/-- The heart of the alignment argument: filtering the transformed table to
one region recovers that region's rows paired with its filled rent sequence
(from offset `countP past`). -/
theorem fillGroupsFrom_filter (orig : List Obs) (z : Nat) :
    ∀ (rest past : List Obs),
      past.countP (fun p => p.zip == z) + rest.countP (fun p => p.zip == z)
        = (groupRents orig z).length →
      (fillGroupsFrom orig past rest).filter (fun o => o.zip == z)
        = setRents (rest.filter (fun o => o.zip == z))
            ((ffillbfill (groupRents orig z)).drop
              (past.countP (fun p => p.zip == z))) := by
  intro rest
  induction rest with
  | nil =>
    intro past h
    simp [fillGroupsFrom, setRents]
  | cons o t ih =>
    intro past h
    by_cases hz : o.zip = z
    · have hzb : (o.zip == z) = true := by simp [hz]
      have hcount : (o :: t).countP (fun p => p.zip == z)
          = t.countP (fun p => p.zip == z) + 1 := by
        simp [List.countP_cons, hzb]
      have hk : past.countP (fun p => p.zip == z)
          < (ffillbfill (groupRents orig z)).length := by
        rw [length_ffillbfill]
        omega
      have hpast : (past ++ [o]).countP (fun p => p.zip == z)
          = past.countP (fun p => p.zip == z) + 1 := by
        simp [List.countP_append, List.countP_cons, hzb]
      have hrec := ih (past ++ [o]) (by rw [hpast]; omega)
      rw [hpast] at hrec
      rw [show fillGroupsFrom orig past (o :: t)
          = { o with rent := ((ffillbfill (groupRents orig o.zip))[past.countP
              (fun p => p.zip == o.zip)]?).getD none }
            :: fillGroupsFrom orig (past ++ [o]) t from rfl]
      rw [List.filter_cons_of_pos (by simpa using hzb), hrec,
        List.drop_eq_getElem_cons hk]
      have hfr : (o :: t).filter (fun o => o.zip == z)
          = o :: t.filter (fun o => o.zip == z) := by
        simp [List.filter_cons, hzb]
      rw [hfr, setRents_cons]
      congr 1
      simp [hz, List.getElem?_eq_getElem hk]
    · have hzb : (o.zip == z) = false := by simp [hz]
      have hcount : (o :: t).countP (fun p => p.zip == z)
          = t.countP (fun p => p.zip == z) := by
        simp [List.countP_cons, hzb]
      have hpast : (past ++ [o]).countP (fun p => p.zip == z)
          = past.countP (fun p => p.zip == z) := by
        simp [List.countP_append, List.countP_cons, hzb]
      have hrec := ih (past ++ [o]) (by rw [hpast]; omega)
      rw [hpast] at hrec
      rw [show fillGroupsFrom orig past (o :: t)
          = { o with rent := ((ffillbfill (groupRents orig o.zip))[past.countP
              (fun p => p.zip == o.zip)]?).getD none }
            :: fillGroupsFrom orig (past ++ [o]) t from rfl]
      rw [List.filter_cons_of_neg (by simpa using hzb), hrec]
      have hfr : (o :: t).filter (fun o => o.zip == z)
          = t.filter (fun o => o.zip == z) := by
        simp [List.filter_cons, hzb]
      rw [hfr]

/-- Filtering the gap-filled table to one region yields that region's rows
carrying its filled rent sequence. -/
theorem fillGroups_filter (l : List Obs) (z : Nat) :
    (fillGroups l).filter (fun o => o.zip == z)
      = setRents (l.filter (fun o => o.zip == z)) (ffillbfill (groupRents l z)) := by
  have h : ([] : List Obs).countP (fun p => p.zip == z) + l.countP (fun p => p.zip == z)
      = (groupRents l z).length := by
    simp [groupRents, List.countP_eq_length_filter]
  simpa using fillGroupsFrom_filter l z l [] h

theorem filter_filter_const {α : Type} (p q : α → Bool) (b : Bool)
    (hpq : ∀ x, q x = true → p x = b) :
    ∀ l : List α, (l.filter p).filter q = if b then l.filter q else [] := by
  intro l
  induction l with
  | nil => cases b <;> simp
  | cons x t ih =>
    by_cases hq : q x = true
    · have hp : p x = b := hpq x hq
      cases hb : b
      · rw [hb] at hp
        simp [List.filter_cons, hp, hq, ih, hb]
      · rw [hb] at hp
        simp [List.filter_cons, hp, hq, ih, hb]
    · have hq' : q x = false := by simpa using hq
      cases hp : p x
      · simp [List.filter_cons, hp, hq', ih]
      · simp [List.filter_cons, hp, hq', ih]

/-- The `min_months` gate acts on whole regions: the group of `z` survives
unchanged iff `z` has enough non-missing observations, else it vanishes. -/
theorem gateStage_filter (l : List Obs) (m : ℤ) (z : Nat) :
    (gateStage l m).filter (fun o => o.zip == z)
      = if m ≤ (notnaCount l z : ℤ) then l.filter (fun o => o.zip == z) else [] := by
  rw [gateStage]
  have h := filter_filter_const
    (fun o : Obs => decide (m ≤ (notnaCount l o.zip : ℤ)))
    (fun o : Obs => o.zip == z) (decide (m ≤ (notnaCount l z : ℤ)))
    (by
      intro x hx
      have hxz : x.zip = z := by simpa using hx
      simp [hxz]) l
  rw [h]
  by_cases hm : m ≤ (notnaCount l z : ℤ) <;> simp [hm]

theorem groupRents_gateStage (l : List Obs) (m : ℤ) (z : Nat)
    (h : m ≤ (notnaCount l z : ℤ)) :
    groupRents (gateStage l m) z = groupRents l z := by
  rw [groupRents, groupRents, gateStage_filter, if_pos h]

/-! ## Lemmas about the sort stage -/

theorem sortStage_perm (l : List Obs) : (sortStage l).Perm l :=
  List.perm_insertionSort obsLe l

theorem mem_sortStage {o : Obs} {l : List Obs} : o ∈ sortStage l ↔ o ∈ l :=
  (sortStage_perm l).mem_iff

theorem sortStage_sorted (l : List Obs) : (sortStage l).Pairwise obsLe :=
  List.sorted_insertionSort obsLe l

/-! ## Lemmas about melt and the parse stage -/

theorem parseStage_append (l t : List LongRow) :
    parseStage (l ++ t) = parseStage l ++ parseStage t :=
  List.filterMap_append ..

/-- One melted column block after parsing: all of the column's records if its
label parses, nothing otherwise. -/
theorem parseStage_block (rows : List WideRow) (p : Nat × String) :
    parseStage (rows.map (fun r => ⟨r.zip, p.2, r.cells p.1⟩))
      = match parseDate p.2 with
        | some d => rows.map (fun r => ⟨r.zip, d, r.cells p.1⟩)
        | none => [] := by
  cases hp : parseDate p.2 with
  | some d =>
    induction rows with
    | nil => rfl
    | cons r t ih =>
      simp only [List.map_cons, parseStage, List.filterMap_cons] at ih ⊢
      simp [hp, ih]
  | none =>
    induction rows with
    | nil => rfl
    | cons r t ih =>
      simp only [List.map_cons, parseStage, List.filterMap_cons] at ih ⊢
      simp [hp, ih]

/-- The long table of lines 162-172 consists of one block per period column
whose label parses, each block carrying every region's cell of that column. -/
theorem parseStage_melt (tbl : WideTable) :
    parseStage (melt tbl)
      = (dateCols tbl.cols).flatMap (fun p =>
          match parseDate p.2 with
          | some d => tbl.rows.map (fun r => ⟨r.zip, d, r.cells p.1⟩)
          | none => []) := by
  rw [melt]
  induction dateCols tbl.cols with
  | nil => rfl
  | cons p cs ih =>
    rw [List.flatMap_cons, List.flatMap_cons, parseStage_append, ih, parseStage_block]

theorem mem_parseStage_melt {tbl : WideTable} {r : WideRow} {i : Nat} {c : String}
    {d : MDate} (hr : r ∈ tbl.rows) (hc : (i, c) ∈ dateCols tbl.cols)
    (hd : parseDate c = some d) :
    (⟨r.zip, d, r.cells i⟩ : Obs) ∈ parseStage (melt tbl) := by
  rw [parseStage_melt]
  refine List.mem_flatMap.2 ⟨(i, c), hc, ?_⟩
  rw [show ((i, c) : Nat × String).2 = c from rfl, hd]
  exact List.mem_map.2 ⟨r, hr, rfl⟩

theorem notnaCount_pos_groupRents {l : List Obs} {z : Nat}
    (h : 1 ≤ notnaCount l z) : ∃ x ∈ groupRents l z, x.isSome := by
  rw [notnaCount] at h
  obtain ⟨o, ho⟩ := List.exists_mem_of_length_pos h
  have hmem := List.mem_filter.1 ho
  have hpred : (o.zip == z && o.rent.isSome) = true := hmem.2
  rw [Bool.and_eq_true] at hpred
  have hzip : o.zip = z := eq_of_beq hpred.1
  have hsome : o.rent.isSome := hpred.2
  refine ⟨o.rent, ?_, hsome⟩
  rw [groupRents]
  exact List.mem_map.2 ⟨o, List.mem_filter.2 ⟨hmem.1, by simp [hzip]⟩, rfl⟩

theorem mem_setRents {l : List Obs} {ρ : List (Option ℚ)} {x : Obs}
    (h : x ∈ setRents l ρ) :
    ∃ (i : ℕ) (o : Obs) (v : Option ℚ),
      l[i]? = some o ∧ ρ[i]? = some v ∧ x = { o with rent := v } := by
  obtain ⟨i, hi⟩ := List.mem_iff_getElem?.1 h
  rw [setRents_getElem? l ρ i] at hi
  cases ho : l[i]? with
  | none => rw [ho] at hi; simp at hi
  | some o =>
    cases hv : ρ[i]? with
    | none => rw [ho, hv] at hi; simp at hi
    | some v =>
      rw [ho, hv] at hi
      exact ⟨i, o, v, ho, hv, (Option.some_inj.1 hi).symm⟩

theorem notnaCount_pos_exists_obs {l : List Obs} {z : Nat}
    (h : 1 ≤ notnaCount l z) : ∃ o ∈ l, o.zip = z := by
  rw [notnaCount] at h
  obtain ⟨o, ho⟩ := List.exists_mem_of_length_pos h
  have hmem := List.mem_filter.1 ho
  have hpred : (o.zip == z && o.rent.isSome) = true := hmem.2
  rw [Bool.and_eq_true] at hpred
  exact ⟨o, hmem.1, eq_of_beq hpred.1⟩

theorem exists_zip_fillGroups {l : List Obs} {z : Nat} :
    (∃ o ∈ fillGroups l, o.zip = z) ↔ ∃ o ∈ l, o.zip = z := by
  have hmap := fillGroups_map_zip l
  constructor
  · rintro ⟨o, ho, rfl⟩
    have : o.zip ∈ (fillGroups l).map (fun o => o.zip) := List.mem_map.2 ⟨o, ho, rfl⟩
    rw [hmap] at this
    obtain ⟨o', ho', hz⟩ := List.mem_map.1 this
    exact ⟨o', ho', hz⟩
  · rintro ⟨o, ho, rfl⟩
    have : o.zip ∈ (l.map (fun o => o.zip)) := List.mem_map.2 ⟨o, ho, rfl⟩
    rw [← hmap] at this
    obtain ⟨o', ho', hz⟩ := List.mem_map.1 this
    exact ⟨o', ho', hz⟩

theorem mem_gateStage {l : List Obs} {m : ℤ} {o : Obs} (ho : o ∈ l)
    (h : m ≤ (notnaCount l o.zip : ℤ)) : o ∈ gateStage l m :=
  List.mem_filter.2 ⟨ho, decide_eq_true h⟩

theorem gate_of_mem_gateStage {l : List Obs} {m : ℤ} {o : Obs}
    (ho : o ∈ gateStage l m) : o ∈ l ∧ m ≤ (notnaCount l o.zip : ℤ) :=
  ⟨(List.mem_filter.1 ho).1, of_decide_eq_true (List.mem_filter.1 ho).2⟩

/-- Every observation a run with a positive `min_months` outputs has a
non-missing rent: its region passed the gate, so its group held at least one
non-missing value, and the forward/backward fill then populates every slot. -/
theorem prepare_rent_isSome {tbl : WideTable} {m : ℤ} (hm : 1 ≤ m) {o : Obs}
    (ho : o ∈ prepare_zillow_timeseries tbl m) : o.rent.isSome := by
  have ho' : o ∈ fillGroups (gateStage (parseStage (melt tbl)) m) := mem_sortStage.1 ho
  have hofz : o ∈ (fillGroups (gateStage (parseStage (melt tbl)) m)).filter
      (fun p => p.zip == o.zip) := List.mem_filter.2 ⟨ho', by simp⟩
  rw [fillGroups_filter] at hofz
  obtain ⟨i, o0, v, hgi, hvi, hxo⟩ := mem_setRents hofz
  have ho0 : o0 ∈ (gateStage (parseStage (melt tbl)) m).filter (fun p => p.zip == o.zip) :=
    List.getElem?_mem hgi
  have ho0k := (List.mem_filter.1 ho0).1
  have ho0z : o0.zip = o.zip := eq_of_beq (List.mem_filter.1 ho0).2
  have hgate := (gate_of_mem_gateStage ho0k).2
  rw [ho0z] at hgate
  have hcnt : 1 ≤ notnaCount (parseStage (melt tbl)) o.zip := by omega
  obtain ⟨x, hxmem, hxsome⟩ := notnaCount_pos_groupRents hcnt
  have hgr : groupRents (gateStage (parseStage (melt tbl)) m) o.zip
      = groupRents (parseStage (melt tbl)) o.zip := groupRents_gateStage _ _ _ hgate
  have hvsome : v.isSome :=
    ffillbfill_forall_isSome ⟨x, hgr ▸ hxmem, hxsome⟩ v (List.getElem?_mem hvi)
  rw [hxo]
  exact hvsome

/-- Each region's rows in the output are chronologically sorted. -/
theorem prepare_region_sorted (tbl : WideTable) (m : ℤ) (z : Nat) :
    ((prepare_zillow_timeseries tbl m).filter (fun o => o.zip == z)).Pairwise
      (fun a b => dateLe a.date b.date) := by
  have h1 : (prepare_zillow_timeseries tbl m).Pairwise obsLe := sortStage_sorted _
  have h2 : ((prepare_zillow_timeseries tbl m).filter (fun o => o.zip == z)).Pairwise obsLe :=
    h1.sublist (List.filter_sublist _)
  refine h2.imp_of_mem ?_
  intro a b ha hb hab
  have haz : a.zip = z := eq_of_beq (List.mem_filter.1 ha).2
  have hbz : b.zip = z := eq_of_beq (List.mem_filter.1 hb).2
  rcases hab with h | ⟨_, h⟩
  · rw [haz, hbz] at h
    exact absurd h (lt_irrefl z)
  · exact h

/-! ## Claim C3 -/

/-- C3: for every positive `min_months`, a region with exactly
`min_months` non-missing values over the parseable period columns is retained
by the Series Builder, while a region with exactly `min_months - 1`
non-missing values is excluded from the output entirely. -/
theorem C3_inclusion_threshold_boundary (tbl : WideTable) (m : ℤ) (z : Nat)
    (hm : 1 ≤ m) :
    ((notnaCount (parseStage (melt tbl)) z : ℤ) = m →
      ∃ o ∈ prepare_zillow_timeseries tbl m, o.zip = z) ∧
    ((notnaCount (parseStage (melt tbl)) z : ℤ) = m - 1 →
      ∀ o ∈ prepare_zillow_timeseries tbl m, o.zip ≠ z) := by
  constructor
  · intro hc
    have hcnt : 1 ≤ notnaCount (parseStage (melt tbl)) z := by omega
    obtain ⟨o, ho, hoz⟩ := notnaCount_pos_exists_obs hcnt
    have hok : o ∈ gateStage (parseStage (melt tbl)) m :=
      mem_gateStage ho (by rw [hoz]; omega)
    obtain ⟨o', ho', hz'⟩ := exists_zip_fillGroups.2 ⟨o, hok, hoz⟩
    exact ⟨o', mem_sortStage.2 ho', hz'⟩
  · intro hc o ho hoz
    have ho' : o ∈ fillGroups (gateStage (parseStage (melt tbl)) m) := mem_sortStage.1 ho
    obtain ⟨o0, ho0, ho0z⟩ := exists_zip_fillGroups.1 ⟨o, ho', hoz⟩
    have hgate := (gate_of_mem_gateStage ho0).2
    rw [ho0z] at hgate
    omega

/-- Witness for C3: in `tblA` region 7 has exactly 2 non-missing values, so it
is retained at `min_months = 2` and excluded at `min_months = 3`. -/
theorem C3_witness :
    ((1 : ℤ) ≤ 2 ∧ (notnaCount (parseStage (melt tblA)) 7 : ℤ) = 2 ∧
      ∃ o ∈ prepare_zillow_timeseries tblA 2, o.zip = 7) ∧
    ((1 : ℤ) ≤ 3 ∧ (notnaCount (parseStage (melt tblA)) 7 : ℤ) = 3 - 1 ∧
      ∀ o ∈ prepare_zillow_timeseries tblA 3, o.zip ≠ 7) :=
  ⟨⟨by decide, by decide,
      (C3_inclusion_threshold_boundary tblA 2 7 (by decide)).1 (by decide)⟩,
    ⟨by decide, by decide,
      (C3_inclusion_threshold_boundary tblA 3 7 (by decide)).2 (by decide)⟩⟩

/-! ## Claim C5 -/

/-- C5: with a positive `min_months`, every per-region series returned by
the Series Builder is chronologically sorted and contains no missing rent:
the gate combined with forward-then-backward fill leaves no hole in any
retained region. -/
theorem C5_series_sorted_and_gapless (tbl : WideTable) (m : ℤ) (hm : 1 ≤ m) :
    (∀ o ∈ prepare_zillow_timeseries tbl m, o.rent.isSome) ∧
    ∀ z : Nat, ((prepare_zillow_timeseries tbl m).filter (fun o => o.zip == z)).Pairwise
      (fun a b => dateLe a.date b.date) :=
  ⟨fun _ ho => prepare_rent_isSome hm ho, fun z => prepare_region_sorted tbl m z⟩

/-- Witness for C5 at `tblA`, `min_months = 1` (February's hole is filled). -/
theorem C5_witness :
    (1 : ℤ) ≤ 1 ∧
    ((∀ o ∈ prepare_zillow_timeseries tblA 1, o.rent.isSome) ∧
      ∀ z : Nat, ((prepare_zillow_timeseries tblA 1).filter (fun o => o.zip == z)).Pairwise
        (fun a b => dateLe a.date b.date)) :=
  ⟨by decide, C5_series_sorted_and_gapless tblA 1 (by decide)⟩

/-! ## Claim C10 -/

/-- C10: a non-positive `min_months` disables history filtering: the gate
keeps every row, and every region with at least one parseable period column
appears in the output — even with zero non-missing values.  The
implementation thus resolves the spec's implementer's choice by treating
`min_months ≤ 0` as "no filtering" rather than signalling a configuration
error. -/
theorem C10_nonpositive_min_months_no_filtering (tbl : WideTable) (m : ℤ)
    (hm : m ≤ 0) :
    gateStage (parseStage (melt tbl)) m = parseStage (melt tbl) ∧
    ∀ r ∈ tbl.rows, (∃ p ∈ dateCols tbl.cols, (parseDate p.2).isSome) →
      ∃ o ∈ prepare_zillow_timeseries tbl m, o.zip = r.zip := by
  have hgate : gateStage (parseStage (melt tbl)) m = parseStage (melt tbl) := by
    rw [gateStage]
    refine List.filter_eq_self.2 ?_
    intro o _
    refine decide_eq_true (le_trans hm ?_)
    exact Int.natCast_nonneg _
  refine ⟨hgate, ?_⟩
  rintro r hr ⟨p, hp, hps⟩
  obtain ⟨d, hd⟩ := Option.isSome_iff_exists.1 hps
  have hobs : (⟨r.zip, d, r.cells p.1⟩ : Obs) ∈ parseStage (melt tbl) :=
    mem_parseStage_melt hr (by simpa using hp) hd
  rw [← hgate] at hobs
  obtain ⟨o', ho', hz'⟩ := exists_zip_fillGroups.2
    ⟨⟨r.zip, d, r.cells p.1⟩, hobs, rfl⟩
  exact ⟨o', mem_sortStage.2 ho', hz'⟩

/-- Witness for C10: with `min_months = 0`, region 3 of `tblB` is retained
although it has no non-missing observation at all. -/
theorem C10_witness :
    (0 : ℤ) ≤ 0 ∧
    (gateStage (parseStage (melt tblB)) 0 = parseStage (melt tblB) ∧
      ∀ r ∈ tblB.rows, (∃ p ∈ dateCols tblB.cols, (parseDate p.2).isSome) →
        ∃ o ∈ prepare_zillow_timeseries tblB 0, o.zip = r.zip) :=
  ⟨by decide, C10_nonpositive_min_months_no_filtering tblB 0 (by decide)⟩

/-! ## Lemmas about the forecaster -/

theorem uniqueZips_nodup (df : List Obs) : (uniqueZips df).Nodup :=
  ((List.perm_insertionSort _ _).nodup_iff).2 (List.nodup_dedup _)

theorem mem_uniqueZips {df : List Obs} {z : Nat} :
    z ∈ uniqueZips df ↔ ∃ o ∈ df, o.zip = z := by
  rw [uniqueZips, (List.perm_insertionSort _ _).mem_iff, List.mem_dedup]
  exact List.mem_map

theorem forecastGroup_zip {z : Nat} {g : List Obs} {y : Nat} {rs : List ForecastRow}
    (h : forecastGroup z g y = some rs) : ∀ fr ∈ rs, fr.zip = z := by
  rw [forecastGroup] at h
  by_cases hlen : g.length < 24
  · rw [if_pos hlen] at h
    obtain rfl := Option.some_inj.1 h
    intro fr hfr
    simp at hfr
  · rw [if_neg hlen] at h
    cases har : allRents g with
    | none => rw [har] at h; simp at h
    | some ys =>
      rw [har] at h
      obtain rfl := Option.some_inj.1 h
      intro fr hfr
      obtain ⟨k, _, rfl⟩ := List.mem_map.1 hfr
      rfl

theorem runForecastAux_zips {df : List Obs} {y : Nat} :
    ∀ {zs : List Nat} {res : List ForecastRow}, runForecastAux df y zs = some res →
      ∀ fr ∈ res, fr.zip ∈ zs := by
  intro zs
  induction zs with
  | nil =>
    intro res h fr hfr
    obtain rfl := Option.some_inj.1 h.symm
    simp at hfr
  | cons z zs ih =>
    intro res h fr hfr
    simp only [runForecastAux] at h
    cases h1 : forecastGroup z (groupOf df z) y with
    | none => rw [h1] at h; simp at h
    | some rs =>
      cases h2 : runForecastAux df y zs with
      | none => rw [h1, h2] at h; simp at h
      | some rest =>
        rw [h1, h2] at h
        obtain rfl := Option.some_inj.1 h
        rcases List.mem_append.1 hfr with hin | hin
        · rw [forecastGroup_zip h1 fr hin]
          exact List.mem_cons_self z zs
        · exact List.mem_cons_of_mem z (ih h2 fr hin)

/-- Reading one region's rows off `run_forecast`'s output: they are exactly
what `forecastGroup` produced for that region's group. -/
theorem runForecastAux_filter {df : List Obs} {y : Nat} :
    ∀ {zs : List Nat}, zs.Nodup → ∀ {z : Nat} {res : List ForecastRow}, z ∈ zs →
      runForecastAux df y zs = some res →
      ∃ rs, forecastGroup z (groupOf df z) y = some rs ∧
        res.filter (fun fr => fr.zip == z) = rs := by
  intro zs
  induction zs with
  | nil =>
    intro _ z res hz
    simp at hz
  | cons z' zs ih =>
    intro hnd z res hz h
    simp only [runForecastAux] at h
    cases h1 : forecastGroup z' (groupOf df z') y with
    | none => rw [h1] at h; simp at h
    | some rs' =>
      cases h2 : runForecastAux df y zs with
      | none => rw [h1, h2] at h; simp at h
      | some rest =>
        rw [h1, h2] at h
        obtain rfl := Option.some_inj.1 h
        rcases List.mem_cons.1 hz with rfl | hmem
        · refine ⟨rs', h1, ?_⟩
          rw [List.filter_append]
          have hrs : rs'.filter (fun fr => fr.zip == z) = rs' :=
            List.filter_eq_self.2 (fun fr hfr => by simp [forecastGroup_zip h1 fr hfr])
          have hrest : rest.filter (fun fr => fr.zip == z) = [] := by
            refine List.filter_eq_nil_iff.2 ?_
            intro fr hfr hbeq
            have hzin := runForecastAux_zips h2 fr hfr
            have hz' : z ∉ zs := (List.nodup_cons.1 hnd).1
            rw [eq_of_beq hbeq] at hzin
            exact hz' hzin
          rw [hrs, hrest, List.append_nil]
        · obtain ⟨rs, hfg, hfilter⟩ := ih (List.nodup_cons.1 hnd).2 hmem h2
          refine ⟨rs, hfg, ?_⟩
          rw [List.filter_append, hfilter]
          have hz'ne : z' ≠ z := fun he => (List.nodup_cons.1 hnd).1 (he ▸ hmem)
          have hrs' : rs'.filter (fun fr => fr.zip == z) = [] := by
            refine List.filter_eq_nil_iff.2 ?_
            intro fr hfr hbeq
            rw [forecastGroup_zip h1 fr hfr] at hbeq
            exact hz'ne (eq_of_beq hbeq)
          rw [hrs', List.nil_append]

theorem allRents_isSome {g : List Obs} (h : ∀ o ∈ g, o.rent.isSome) :
    ∃ ys, allRents g = some ys := by
  induction g with
  | nil => exact ⟨[], rfl⟩
  | cons o t ih =>
    obtain ⟨ys, hys⟩ := ih (fun o' ho' => h o' (List.mem_cons_of_mem _ ho'))
    obtain ⟨v, hv⟩ := Option.isSome_iff_exists.1 (h o (List.mem_cons_self o t))
    exact ⟨v :: ys, by simp [allRents, hv, hys]⟩

theorem forecastGroup_isSome (z y : Nat) {g : List Obs}
    (h : ∀ o ∈ g, o.rent.isSome) : (forecastGroup z g y).isSome := by
  by_cases hlen : g.length < 24
  · simp [forecastGroup, hlen]
  · obtain ⟨ys, hys⟩ := allRents_isSome h
    simp [forecastGroup, hlen, hys]

/-- When no rent is missing, `run_forecast` completes without error. -/
theorem run_forecast_total {df : List Obs} (h : ∀ o ∈ df, o.rent.isSome) (y : Nat) :
    (run_forecast df y).isSome := by
  rw [run_forecast]
  suffices hall : ∀ zs : List Nat, (runForecastAux df y zs).isSome from hall _
  intro zs
  induction zs with
  | nil => simp [runForecastAux]
  | cons z zs ih =>
    have hg : ∀ o ∈ groupOf df z, o.rent.isSome := fun o ho =>
      h o (List.mem_filter.1 ho).1
    obtain ⟨rs, hrs⟩ := Option.isSome_iff_exists.1 (forecastGroup_isSome z y hg)
    obtain ⟨rest, hrest⟩ := Option.isSome_iff_exists.1 ih
    simp [runForecastAux, hrs, hrest]

/-! ## Claim C6 -/

/-- C6: for an eligible region (at least 24 observations) and a positive
horizon of `years * 12` months, a successful `run_forecast` emits exactly
`years * 12` rows for that region, stamped with the strictly consecutive
calendar months immediately following the region's last observed period. -/
theorem C6_horizon_consecutive_months (df : List Obs) (z : Nat) (years : Nat)
    (res : List ForecastRow) (hlen : 24 ≤ (groupOf df z).length) (_hy : 1 ≤ years)
    (hrun : run_forecast df years = some res) :
    ((res.filter (fun fr => fr.zip == z)).map (fun fr => fr.date))
      = (List.range (years * 12)).map
          (fun k => ⟨(maxDateOf (groupOf df z)).mo + 1 + k, 1⟩) ∧
    (res.filter (fun fr => fr.zip == z)).length = years * 12 := by
  have hpos : 0 < (groupOf df z).length := by omega
  obtain ⟨o, ho⟩ := List.exists_mem_of_length_pos hpos
  have hzin : z ∈ uniqueZips df :=
    mem_uniqueZips.2 ⟨o, (List.mem_filter.1 ho).1, eq_of_beq (List.mem_filter.1 ho).2⟩
  rw [run_forecast] at hrun
  obtain ⟨rs, hfg, hfilter⟩ := runForecastAux_filter (uniqueZips_nodup df) hzin hrun
  rw [forecastGroup, if_neg (by omega)] at hfg
  cases har : allRents (groupOf df z) with
  | none => rw [har] at hfg; simp at hfg
  | some ys =>
    rw [har] at hfg
    obtain rfl := Option.some_inj.1 hfg
    rw [hfilter]
    constructor
    · rw [List.map_map]
      rfl
    · simp

/-- Witness for C6 on a 24-month constant series. -/
theorem C6_witness :
    24 ≤ (groupOf dfC 1).length ∧ 1 ≤ 1 ∧
    run_forecast dfC 1 = some ((run_forecast dfC 1).getD []) ∧
    ((((run_forecast dfC 1).getD []).filter (fun fr => fr.zip == 1)).map
        (fun fr => fr.date)
      = (List.range (1 * 12)).map
          (fun k => ⟨(maxDateOf (groupOf dfC 1)).mo + 1 + k, 1⟩) ∧
    (((run_forecast dfC 1).getD []).filter (fun fr => fr.zip == 1)).length = 1 * 12) :=
  ⟨by decide, by decide, by rfl,
    C6_horizon_consecutive_months dfC 1 1 ((run_forecast dfC 1).getD [])
      (by decide) (by decide) (by rfl)⟩

/-! ## Claim C8 -/

/-- C8: a region that passes the Series Builder's gate but whose cleaned
series is shorter than 24 observations appears in the cleaned output yet
contributes zero forecast rows: the forecaster skips it without error and
without partial output for that region. -/
theorem C8_short_series_skipped (tbl : WideTable) (m : ℤ) (z : Nat) (years : Nat)
    (hm : 1 ≤ m)
    (hne : (prepare_zillow_timeseries tbl m).filter (fun o => o.zip == z) ≠ [])
    (hshort : ((prepare_zillow_timeseries tbl m).filter (fun o => o.zip == z)).length < 24) :
    (∃ o ∈ prepare_zillow_timeseries tbl m, o.zip = z) ∧
    ∃ res, run_forecast (prepare_zillow_timeseries tbl m) years = some res ∧
      res.filter (fun fr => fr.zip == z) = [] := by
  have hall : ∀ o ∈ prepare_zillow_timeseries tbl m, o.rent.isSome := fun _ ho =>
    prepare_rent_isSome hm ho
  obtain ⟨res, hres⟩ := Option.isSome_iff_exists.1 (run_forecast_total hall years)
  obtain ⟨o, ho⟩ := List.exists_mem_of_length_pos (List.length_pos.2 hne)
  have hoz : o.zip = z := eq_of_beq (List.mem_filter.1 ho).2
  have hom : o ∈ prepare_zillow_timeseries tbl m := (List.mem_filter.1 ho).1
  refine ⟨⟨o, hom, hoz⟩, res, hres, ?_⟩
  have hzin : z ∈ uniqueZips (prepare_zillow_timeseries tbl m) :=
    mem_uniqueZips.2 ⟨o, hom, hoz⟩
  rw [run_forecast] at hres
  obtain ⟨rs, hfg, hfilter⟩ :=
    runForecastAux_filter (uniqueZips_nodup (prepare_zillow_timeseries tbl m)) hzin hres
  rw [forecastGroup,
    if_pos (show (groupOf (prepare_zillow_timeseries tbl m) z).length < 24 from hshort)] at hfg
  rw [hfilter, ← Option.some_inj.1 hfg]

/-- Witness for C8: in `tblD` region 4 has 12 observations, passing
`min_months = 12` but falling short of the 24-observation fit gate. -/
theorem C8_witness :
    (1 : ℤ) ≤ 12 ∧
    (prepare_zillow_timeseries tblD 12).filter (fun o => o.zip == 4) ≠ [] ∧
    ((prepare_zillow_timeseries tblD 12).filter (fun o => o.zip == 4)).length < 24 ∧
    ((∃ o ∈ prepare_zillow_timeseries tblD 12, o.zip = 4) ∧
      ∃ res, run_forecast (prepare_zillow_timeseries tblD 12) 5 = some res ∧
        res.filter (fun fr => fr.zip == 4) = []) :=
  ⟨by decide, by decide, by decide,
    C8_short_series_skipped tblD 12 4 5 (by decide) (by decide) (by decide)⟩

/-! ## Closed-form sums and the ordinary-least-squares fit -/

theorem sum_range_cast (n : ℕ) :
    ((List.range n).map (fun i : ℕ => (i : ℚ))).sum = n * (n - 1) / 2 := by
  induction n with
  | zero => simp
  | succ m ih =>
    rw [List.range_succ, List.map_append, List.sum_append, ih]
    push_cast
    simp
    ring

theorem sum_range_sq (n : ℕ) :
    ((List.range n).map (fun i : ℕ => (i : ℚ) * i)).sum
      = n * (n - 1) * (2 * n - 1) / 6 := by
  induction n with
  | zero => simp
  | succ m ih =>
    rw [List.range_succ, List.map_append, List.sum_append, ih]
    push_cast
    simp
    ring

theorem sum_range_affine (a b : ℚ) (n : ℕ) :
    ((List.range n).map (fun i : ℕ => a + b * i)).sum
      = n * a + b * (n * (n - 1) / 2) := by
  induction n with
  | zero => simp
  | succ m ih =>
    rw [List.range_succ, List.map_append, List.sum_append, ih]
    push_cast
    simp
    ring

theorem sum_range_taffine (a b : ℚ) (n : ℕ) :
    ((List.range n).map (fun i : ℕ => (i : ℚ) * (a + b * i))).sum
      = a * (n * (n - 1) / 2) + b * (n * (n - 1) * (2 * n - 1) / 6) := by
  induction n with
  | zero => simp
  | succ m ih =>
    rw [List.range_succ, List.map_append, List.sum_append, ih]
    push_cast
    simp
    ring

theorem zipWith_mul_map (f g : ℕ → ℚ) (l : List ℕ) :
    List.zipWith (fun t y => t * y) (l.map f) (l.map g) = l.map (fun i => f i * g i) := by
  induction l with
  | nil => rfl
  | cons x t ih => simp [ih]

/-- On data lying exactly on the line `a + b*t`, with at least two sample
points, the closed-form OLS fit recovers slope `b` and intercept `a`
exactly. -/
theorem olsFit_affine (a b : ℚ) (n : ℕ) (hn : 2 ≤ n) :
    olsFit ((List.range n).map (fun i : ℕ => a + b * i)) = (b, a) := by
  have hN : (2 : ℚ) ≤ (n : ℚ) := by exact_mod_cast hn
  have hN0 : (n : ℚ) ≠ 0 := by nlinarith
  simp only [olsFit, List.length_map, List.length_range]
  rw [zipWith_mul_map (fun i : ℕ => (i : ℚ)) (fun i : ℕ => a + b * i) (List.range n),
    List.map_map]
  rw [show ((fun t : ℚ => t * t) ∘ fun i : ℕ => (i : ℚ)) = fun i : ℕ => (i : ℚ) * i
    from rfl]
  rw [sum_range_cast, sum_range_sq, sum_range_affine, sum_range_taffine]
  have hd : (n : ℚ) * ((n : ℚ) * ((n : ℚ) - 1) * (2 * (n : ℚ) - 1) / 6)
      - (n : ℚ) * ((n : ℚ) - 1) / 2 * ((n : ℚ) * ((n : ℚ) - 1) / 2)
      = (n : ℚ) ^ 2 * ((n : ℚ) ^ 2 - 1) / 12 := by ring
  have hdpos : 0 < (n : ℚ) ^ 2 * ((n : ℚ) ^ 2 - 1) / 12 := by
    have h1 : (4 : ℚ) ≤ (n : ℚ) ^ 2 := by nlinarith
    have h2 : (3 : ℚ) ≤ (n : ℚ) ^ 2 - 1 := by nlinarith
    nlinarith
  have hdne : (n : ℚ) * ((n : ℚ) * ((n : ℚ) - 1) * (2 * (n : ℚ) - 1) / 6)
      - (n : ℚ) * ((n : ℚ) - 1) / 2 * ((n : ℚ) * ((n : ℚ) - 1) / 2) ≠ 0 := by
    rw [hd]
    exact ne_of_gt hdpos
  rw [if_neg hdne]
  have hnum : (n : ℚ) * (a * ((n : ℚ) * ((n : ℚ) - 1) / 2)
        + b * ((n : ℚ) * ((n : ℚ) - 1) * (2 * (n : ℚ) - 1) / 6))
      - (n : ℚ) * ((n : ℚ) - 1) / 2 * ((n : ℚ) * a + b * ((n : ℚ) * ((n : ℚ) - 1) / 2))
      = b * ((n : ℚ) * ((n : ℚ) * ((n : ℚ) - 1) * (2 * (n : ℚ) - 1) / 6)
        - (n : ℚ) * ((n : ℚ) - 1) / 2 * ((n : ℚ) * ((n : ℚ) - 1) / 2)) := by ring
  have hslope : ((n : ℚ) * (a * ((n : ℚ) * ((n : ℚ) - 1) / 2)
        + b * ((n : ℚ) * ((n : ℚ) - 1) * (2 * (n : ℚ) - 1) / 6))
      - (n : ℚ) * ((n : ℚ) - 1) / 2 * ((n : ℚ) * a + b * ((n : ℚ) * ((n : ℚ) - 1) / 2)))
      / ((n : ℚ) * ((n : ℚ) * ((n : ℚ) - 1) * (2 * (n : ℚ) - 1) / 6)
        - (n : ℚ) * ((n : ℚ) - 1) / 2 * ((n : ℚ) * ((n : ℚ) - 1) / 2)) = b := by
    rw [hnum]
    exact mul_div_cancel_right₀ b hdne
  rw [hslope]
  have hint : ((n : ℚ) * a + b * ((n : ℚ) * ((n : ℚ) - 1) / 2)
      - b * ((n : ℚ) * ((n : ℚ) - 1) / 2)) = (n : ℚ) * a := by ring
  rw [Prod.mk.injEq]
  refine ⟨rfl, ?_⟩
  rw [hint]
  exact mul_div_cancel_left₀ a hN0

theorem allRents_map_some (l : List ℕ) (z : Nat) (dfn : ℕ → MDate) (f : ℕ → ℚ) :
    allRents (l.map (fun t => ⟨z, dfn t, some (f t)⟩)) = some (l.map f) := by
  induction l with
  | nil => rfl
  | cons x t ih => simp [allRents, ih]

/-! ## Claim C7 -/

set_option maxRecDepth 4000 in
/-- C7: for a cleaned series with values exactly `100 + 5*t` at time
indices `t = 0..29` (30 observations, clearing the 24-observation gate), the
OLS fit yields slope 5 and intercept 100 — exactly, in the rational-number
model, hence a fortiori within floating-point tolerance — and the first
projected value, evaluated at `t = 30`, equals 250. -/
theorem C7_synthetic_trend_exact :
    olsFit ((List.range 30).map (fun t : ℕ => (100 : ℚ) + 5 * t)) = (5, 100) ∧
    (olsFit ((List.range 30).map (fun t : ℕ => (100 : ℚ) + 5 * t))).1 * 30
      + (olsFit ((List.range 30).map (fun t : ℕ => (100 : ℚ) + 5 * t))).2 = 250 ∧
    (forecastGroup 1 g30 5).bind List.head?
      = some ⟨1, ⟨12 * 2015 + 30, 1⟩, 250⟩ := by
  have hfit := olsFit_affine 100 5 30 (by norm_num)
  have hlen : g30.length = 30 := by simp [g30]
  refine ⟨hfit, by rw [hfit]; norm_num, ?_⟩
  have hys : allRents g30
      = some ((List.range 30).map (fun t : ℕ => (100 : ℚ) + 5 * t)) :=
    allRents_map_some (List.range 30) 1 (fun t => ⟨12 * 2015 + t, 28⟩)
      (fun t => 100 + 5 * (t : ℚ))
  rw [forecastGroup, if_neg (by rw [hlen]; omega), hys]
  show some (⟨1, ⟨(maxDateOf g30).mo + 1 + 0, 1⟩,
      (olsFit ((List.range 30).map (fun t : ℕ => (100 : ℚ) + 5 * t))).1
        * ((g30.length : ℚ) + ((0 : ℕ) : ℚ))
      + (olsFit ((List.range 30).map (fun t : ℕ => (100 : ℚ) + 5 * t))).2⟩
      : ForecastRow) = some ⟨1, ⟨12 * 2015 + 30, 1⟩, 250⟩
  have hmo : (maxDateOf g30).mo = 12 * 2015 + 29 := by decide
  rw [hfit, hlen, hmo]
  norm_num

/-! ## Claim C1 -/

/-- C1 (the code contradicts the spec's data flow): `main` (line 238)
passes the raw *wide* zillow frame — as `clean_and_merge` left it — to
`run_forecast`; `prepare_zillow_timeseries` is defined but never called.  On
`tblE`, one region with 30 monthly observations, each region is a single wide
row, so every `groupby("ZIP")` group fails the `shape[0] < 24` gate and
`main`'s run emits an empty forecast table, while the specified composition
`run_forecast ∘ prepare_zillow_timeseries` yields 60 forecast rows. -/
theorem C1_main_bypasses_series_builder :
    mainFitRegions (clean_and_merge_zillow_after tblE) = [] ∧
    wideZipCount tblE 5 = 1 ∧
    (run_forecast (prepare_zillow_timeseries tblE 12) 5).map List.length = some 60 :=
  ⟨by decide, by decide, by rfl⟩

/-! ## Claim C9 -/

/-- C9, counterexample: `clean_and_merge` does *not* leave its `zillow`
argument unchanged: line 114 assigns a `MedianRent` column into the caller's
frame in place, so after the call the frame differs from its prior value
(here by an extra column). -/
theorem C9_cex_clean_and_merge_mutates :
    clean_and_merge_zillow_after tblB ≠ tblB := by
  intro h
  have hc := congrArg (fun t => t.cols.length) h
  simp [clean_and_merge_zillow_after, tblB] at hc

/-- C9, amended: `clean_and_merge`'s only in-place effect on its inputs is
appending the `MedianRent` summary column (row medians over columns 9 and on)
to the zillow frame; every pre-existing cell and region id is untouched, and
the income/burden inputs and the other two stages' inputs are only read. -/
theorem C9_merger_mutation_characterized (tbl : WideTable) :
    (clean_and_merge_zillow_after tbl).cols = tbl.cols ++ ["MedianRent"] ∧
    (clean_and_merge_zillow_after tbl).rows.length = tbl.rows.length ∧
    ∀ r : WideRow, ∀ j : Nat, j < tbl.cols.length →
      (addMedianCell tbl.cols.length r).cells j = r.cells j ∧
      (addMedianCell tbl.cols.length r).zip = r.zip := by
  refine ⟨rfl, by simp [clean_and_merge_zillow_after], ?_⟩
  intro r j hj
  constructor
  · show (if j = tbl.cols.length then
        rowMedian (((List.range tbl.cols.length).drop 9).map r.cells)
      else r.cells j) = r.cells j
    exact if_neg (by omega)
  · rfl

/-- Witness for the amended C9 at `tblB`: the pre-existing column 0 of a row
is unchanged by the in-place `MedianRent` assignment. -/
theorem C9_witness :
    (0 : Nat) < tblB.cols.length ∧
    ((addMedianCell tblB.cols.length ⟨9, fun _ => none⟩).cells 0 = none ∧
      (addMedianCell tblB.cols.length ⟨9, fun _ => none⟩).zip = 9) :=
  ⟨by decide,
    (C9_merger_mutation_characterized tblB).2.2 ⟨9, fun _ => none⟩ 0 (by decide)⟩

/-! ## Claim C2 -/

theorem countP_block (rows : List WideRow) (i : Nat) (d' d : MDate) (z : Nat) :
    ((rows.map (fun r => (⟨r.zip, d', r.cells i⟩ : Obs))).countP
        (fun o => o.zip == z && o.date == d))
      = if d' = d then rows.countP (fun r => r.zip == z) else 0 := by
  induction rows with
  | nil => simp
  | cons r t ih =>
    rw [List.map_cons, List.countP_cons, ih]
    by_cases hd : d' = d
    · subst hd
      simp [List.countP_cons]
    · simp [hd]

theorem countP_blocks_zero (rows : List WideRow) (z : Nat) (d : MDate) :
    ∀ cs : List (Nat × String), d ∉ cs.filterMap (fun p => parseDate p.2) →
      ((cs.flatMap (fun p =>
          match parseDate p.2 with
          | some d' => rows.map (fun r => (⟨r.zip, d', r.cells p.1⟩ : Obs))
          | none => [])).countP (fun o => o.zip == z && o.date == d)) = 0 := by
  intro cs
  induction cs with
  | nil => intro _; rfl
  | cons p t ih =>
    intro hd
    rw [List.flatMap_cons, List.countP_append]
    cases hp : parseDate p.2 with
    | none =>
      have ht : d ∉ t.filterMap (fun p => parseDate p.2) := by
        simpa [List.filterMap_cons, hp] using hd
      simp [hp, ih ht]
    | some d' =>
      have hmem : d ∈ (p :: t).filterMap (fun p => parseDate p.2) ↔
          d = d' ∨ d ∈ t.filterMap (fun p => parseDate p.2) := by
        simp [List.filterMap_cons, hp, eq_comm]
      have hne : d' ≠ d := fun he => hd (hmem.2 (Or.inl he.symm))
      have ht : d ∉ t.filterMap (fun p => parseDate p.2) := fun hmt => hd (hmem.2 (Or.inr hmt))
      have hred : (match some d' with
          | some dd => List.map (fun r => (⟨r.zip, dd, r.cells p.1⟩ : Obs)) rows
          | none => ([] : List Obs))
        = List.map (fun r => (⟨r.zip, d', r.cells p.1⟩ : Obs)) rows := rfl
      rw [hred, countP_block, if_neg hne, ih ht]

theorem countP_blocks_one (rows : List WideRow) (z : Nat) (d : MDate)
    (hz1 : rows.countP (fun r => r.zip == z) = 1) :
    ∀ cs : List (Nat × String),
      (cs.filterMap (fun p => parseDate p.2)).Nodup →
      (∃ p ∈ cs, parseDate p.2 = some d) →
      ((cs.flatMap (fun p =>
          match parseDate p.2 with
          | some d' => rows.map (fun r => (⟨r.zip, d', r.cells p.1⟩ : Obs))
          | none => [])).countP (fun o => o.zip == z && o.date == d)) = 1 := by
  intro cs
  induction cs with
  | nil =>
    rintro _ ⟨p, hp, _⟩
    simp at hp
  | cons p t ih =>
    rintro hnd ⟨p0, hp0, hp0d⟩
    rw [List.flatMap_cons, List.countP_append]
    rcases List.mem_cons.1 hp0 with rfl | hmem
    · have hcons : (p0 :: t).filterMap (fun p => parseDate p.2)
          = d :: t.filterMap (fun p => parseDate p.2) := by
        simp [List.filterMap_cons, hp0d]
      rw [hcons] at hnd
      have hnd' : d ∉ t.filterMap (fun p => parseDate p.2) := (List.nodup_cons.1 hnd).1
      rw [hp0d, countP_block, if_pos rfl, hz1, countP_blocks_zero rows z d t hnd']
    · cases hp : parseDate p.2 with
      | none =>
        have hnd' : (t.filterMap (fun p => parseDate p.2)).Nodup := by
          simpa [List.filterMap_cons, hp] using hnd
        simp [hp, ih hnd' ⟨p0, hmem, hp0d⟩]
      | some d' =>
        have hcons : (p :: t).filterMap (fun p => parseDate p.2)
            = d' :: t.filterMap (fun p => parseDate p.2) := by
          simp [List.filterMap_cons, hp]
        rw [hcons] at hnd
        have hne : d' ≠ d := fun he =>
          (List.nodup_cons.1 hnd).1 (he ▸ List.mem_filterMap.2 ⟨p0, hmem, hp0d⟩)
        have hred : (match some d' with
            | some dd => List.map (fun r => (⟨r.zip, dd, r.cells p.1⟩ : Obs)) rows
            | none => ([] : List Obs))
          = List.map (fun r => (⟨r.zip, d', r.cells p.1⟩ : Obs)) rows := rfl
        rw [hred, countP_block, if_neg hne,
          ih (List.nodup_cons.1 hnd).2 ⟨p0, hmem, hp0d⟩]

/-- C2, counterexample: the claim fails as stated, on two counts exhibited
by `tblF`.  Its two period columns both match and parse — to the *same* date —
and its single region id labels *two* rows; the long form then holds 4 rows,
not one per (region, period-column) pair (2 columns × 1 region), and the
(region, period) multiplicity is 4. -/
theorem C2_cex_duplicates :
    (dateCols tblF.cols).length = 2 ∧
    (tblF.rows.map (fun r => r.zip)).dedup.length = 1 ∧
    (∀ p ∈ dateCols tblF.cols, (parseDate p.2).isSome) ∧
    (parseStage (melt tblF)).length = 4 ∧
    (parseStage (melt tblF)).countP
      (fun o => o.zip == 1 && o.date == ⟨12 * 2015, 1⟩) = 4 := by
  decide

/-- C2, amended: for a wide table whose rows carry pairwise distinct
region ids and whose matched period labels parse to pairwise distinct dates,
the long form contains exactly one row per (region, matched-and-parsed
period column) pair, namely the row holding the parsed date and the source
cell's value; columns failing the pattern or the parse contribute nothing,
and no region is dropped (every region keeps a row for each parsed
column). -/
theorem C2_reshape_amended (tbl : WideTable)
    (hzips : (tbl.rows.map (fun r => r.zip)).Nodup)
    (hdates : ((dateCols tbl.cols).filterMap (fun p => parseDate p.2)).Nodup) :
    ∀ r ∈ tbl.rows, ∀ p ∈ dateCols tbl.cols, ∀ d : MDate, parseDate p.2 = some d →
      ((parseStage (melt tbl)).countP (fun o => o.zip == r.zip && o.date == d) = 1 ∧
        (⟨r.zip, d, r.cells p.1⟩ : Obs) ∈ parseStage (melt tbl)) := by
  intro r hr p hp d hd
  refine ⟨?_, mem_parseStage_melt hr hp hd⟩
  rw [parseStage_melt]
  have hz1 : tbl.rows.countP (fun r' => r'.zip == r.zip) = 1 := by
    have h1 : (tbl.rows.map (fun r => r.zip)).count r.zip = 1 :=
      List.count_eq_one_of_mem hzips (List.mem_map.2 ⟨r, hr, rfl⟩)
    rw [List.count_eq_countP, List.countP_map] at h1
    simpa [Function.comp] using h1
  exact countP_blocks_one tbl.rows r.zip d hz1 (dateCols tbl.cols) hdates ⟨p, hp, hd⟩

/-- Witness for the amended C2 at `tblA`: the January column yields exactly
one long row for region 7, holding the source cell's value 5. -/
theorem C2_witness :
    (tblA.rows.map (fun r => r.zip)).Nodup ∧
    ((dateCols tblA.cols).filterMap (fun p => parseDate p.2)).Nodup ∧
    ((parseStage (melt tblA)).countP
        (fun o => o.zip == 7 && o.date == ⟨12 * 2015, 31⟩) = 1 ∧
      (⟨7, ⟨12 * 2015, 31⟩, some 5⟩ : Obs) ∈ parseStage (melt tblA)) := by
  refine ⟨by decide, by decide, ?_⟩
  have h := C2_reshape_amended tblA (by decide) (by decide)
    ⟨7, fun i => if i = 2 then some 5 else if i = 3 then none
      else if i = 4 then some 9 else none⟩
    (List.mem_singleton.2 rfl) (2, "2015-01-31") (by decide) ⟨12 * 2015, 31⟩ (by decide)
  exact h

/-! ## Claim C4 -/

theorem dateLt_irrefl (a : MDate) : ¬ dateLt a a := by unfold dateLt; omega

theorem dateLt_asymm {a b : MDate} (h : dateLt a b) : ¬ dateLt b a := by
  unfold dateLt at h ⊢
  omega

/-- In a list of observations with strictly increasing dates, the rows dated
strictly before position `j`'s date are exactly the first `j` rows, and the
rows dated strictly after it are exactly the rest. -/
theorem sorted_filter_split {g : List Obs} {j : Nat} {og : Obs}
    (hp : (g.map (fun o => o.date)).Pairwise dateLt)
    (hj : g[j]? = some og) :
    g.filter (fun o => decide (dateLt o.date og.date)) = g.take j ∧
    g.filter (fun o => decide (dateLt og.date o.date)) = g.drop (j + 1) := by
  have hjl : j < g.length := by
    by_contra hge
    rw [List.getElem?_eq_none (le_of_not_lt hge)] at hj
    simp at hj
  have hjeq : g[j] = og := by
    have := List.getElem?_eq_getElem hjl
    rw [hj] at this
    exact (Option.some_inj.1 this).symm
  have hdecomp : g = g.take j ++ og :: g.drop (j + 1) := by
    conv_lhs => rw [← List.take_append_drop j g]
    rw [List.drop_eq_getElem_cons hjl, hjeq]
  have hmapdecomp : g.map (fun o => o.date)
      = (g.take j).map (fun o => o.date)
        ++ og.date :: (g.drop (j + 1)).map (fun o => o.date) := by
    conv_lhs => rw [hdecomp]
    simp
  rw [hmapdecomp, List.pairwise_append] at hp
  obtain ⟨hp1, hp2, hp12⟩ := hp
  have hbefore : ∀ o ∈ g.take j, dateLt o.date og.date := fun o ho =>
    hp12 o.date (List.mem_map.2 ⟨o, ho, rfl⟩) og.date (List.mem_cons_self _ _)
  have hafter : ∀ o ∈ g.drop (j + 1), dateLt og.date o.date := fun o ho =>
    (List.pairwise_cons.1 hp2).1 o.date (List.mem_map.2 ⟨o, ho, rfl⟩)
  have hconsL : List.filter (fun o => decide (dateLt o.date og.date)) (og :: g.drop (j + 1))
      = List.filter (fun o => decide (dateLt o.date og.date)) (g.drop (j + 1)) := by
    rw [List.filter_cons]
    simp [dateLt_irrefl og.date]
  have hconsR : List.filter (fun o => decide (dateLt og.date o.date)) (og :: g.drop (j + 1))
      = List.filter (fun o => decide (dateLt og.date o.date)) (g.drop (j + 1)) := by
    rw [List.filter_cons]
    simp [dateLt_irrefl og.date]
  constructor
  · conv_lhs => rw [hdecomp]
    rw [List.filter_append, hconsL,
      List.filter_eq_self.2 (fun o ho => decide_eq_true (hbefore o ho)),
      List.filter_eq_nil_iff.2 (fun o ho hpred =>
        dateLt_asymm (hafter o ho) (of_decide_eq_true hpred)),
      List.append_nil]
  · conv_lhs => rw [hdecomp]
    rw [List.filter_append, hconsR,
      List.filter_eq_nil_iff.2 (fun o ho hpred =>
        dateLt_asymm (hbefore o ho) (of_decide_eq_true hpred)),
      List.nil_append,
      List.filter_eq_self.2 (fun o ho => decide_eq_true (hafter o ho))]

/-- Distinct positions in a strictly date-sorted list carry distinct dates. -/
theorem pairwise_dates_inj {g : List Obs}
    (hp : (g.map (fun o => o.date)).Pairwise dateLt)
    {i j : Nat} {a b : Obs} (ha : g[i]? = some a) (hb : g[j]? = some b)
    (hd : a.date = b.date) : i = j := by
  have hil : i < g.length := by
    by_contra hge
    rw [List.getElem?_eq_none (le_of_not_lt hge)] at ha
    simp at ha
  have hjl : j < g.length := by
    by_contra hge
    rw [List.getElem?_eq_none (le_of_not_lt hge)] at hb
    simp at hb
  have hia : g[i] = a := by
    have := List.getElem?_eq_getElem hil
    rw [ha] at this
    exact (Option.some_inj.1 this).symm
  have hjb : g[j] = b := by
    have := List.getElem?_eq_getElem hjl
    rw [hb] at this
    exact (Option.some_inj.1 this).symm
  have hml : (g.map (fun o => o.date)).length = g.length := List.length_map ..
  have hpg := List.pairwise_iff_getElem.1 hp
  by_contra hne
  rcases Nat.lt_or_ge i j with hij | hij
  · have hlt := hpg i j (by omega) (by omega) hij
    rw [List.getElem_map, List.getElem_map] at hlt
    rw [hia, hjb, hd] at hlt
    exact dateLt_irrefl b.date hlt
  · have hij' : j < i := by omega
    have hlt := hpg j i (by omega) (by omega) hij'
    rw [List.getElem_map, List.getElem_map] at hlt
    rw [hia, hjb, hd] at hlt
    exact dateLt_irrefl b.date hlt

/-- C4, counterexample: the fill is *not* chronological in general,
because line 180 runs before line 182's sort.  In `tblX` the period columns
appear as March, January, February; region 1's March value is originally
missing, the chronological rule predicts February's value 7 (the most recent
earlier non-missing observation), but the pipeline outputs January's value 5
(the forward fill saw no prior value in melt order, and the backward fill
grabbed the next one, January). -/
theorem C4_cex_fill_ignores_chronology :
    (⟨1, ⟨12 * 2015 + 2, 31⟩, some 5⟩ : Obs) ∈ prepare_zillow_timeseries tblX 1 ∧
    (⟨1, ⟨12 * 2015 + 2, 31⟩, none⟩ : Obs) ∈ parseStage (melt tblX) ∧
    chronoExpected ((parseStage (melt tblX)).filter (fun p => p.zip == 1))
      ⟨12 * 2015 + 2, 31⟩ = some 7 ∧
    some (5 : ℚ) ≠ some 7 := by
  decide

/-- C4, amended: provided a region's parsed observations appear in
strictly increasing date order (which holds exactly when the wide table's
parseable period columns are chronologically ordered and the region's id
labels a single row — true of the real Zillow layout), every output
observation whose original value was missing carries the value of the
chronologically most recent earlier period with a non-missing original value,
or, failing that, of the nearest later one.  Without that proviso the fill
runs in melt (column) order before the sort, and the counterexample above
shows the chronological reading fails. -/
theorem C4_gap_fill_chronological_amended (tbl : WideTable) (m : ℤ) (o : Obs)
    (ho : o ∈ prepare_zillow_timeseries tbl m)
    (hchron : (((parseStage (melt tbl)).filter (fun p => p.zip == o.zip)).map
        (fun p => p.date)).Pairwise dateLt)
    (og : Obs) (hog : og ∈ parseStage (melt tbl)) (hogz : og.zip = o.zip)
    (hogd : og.date = o.date) (hmiss : og.rent = none) :
    o.rent = chronoExpected
      ((parseStage (melt tbl)).filter (fun p => p.zip == o.zip)) o.date := by
  have ho' : o ∈ fillGroups (gateStage (parseStage (melt tbl)) m) := mem_sortStage.1 ho
  have hofz : o ∈ (fillGroups (gateStage (parseStage (melt tbl)) m)).filter
      (fun p => p.zip == o.zip) := List.mem_filter.2 ⟨ho', by simp⟩
  rw [fillGroups_filter] at hofz
  have hpass : m ≤ (notnaCount (parseStage (melt tbl)) o.zip : ℤ) := by
    by_contra hfail
    rw [gateStage_filter, if_neg hfail] at hofz
    simp [setRents] at hofz
  rw [gateStage_filter, if_pos hpass,
    groupRents_gateStage _ _ _ hpass] at hofz
  obtain ⟨j, o0, v, hgj, hvj, hxo⟩ := mem_setRents hofz
  have hogg : og ∈ (parseStage (melt tbl)).filter (fun p => p.zip == o.zip) :=
    List.mem_filter.2 ⟨hog, by simp [hogz]⟩
  obtain ⟨iog, hiog⟩ := List.mem_iff_getElem?.1 hogg
  have ho0d : o0.date = o.date := by rw [hxo]
  have hje : j = iog :=
    pairwise_dates_inj hchron hgj hiog (by rw [ho0d, ← hogd])
  have ho0og : o0 = og := by
    rw [hje] at hgj
    exact Option.some_inj.1 (hgj.symm.trans hiog)
  have hjl : j < ((parseStage (melt tbl)).filter (fun p => p.zip == o.zip)).length := by
    by_contra hge
    rw [List.getElem?_eq_none (le_of_not_lt hge)] at hgj
    simp at hgj
  have hsj : (((parseStage (melt tbl)).filter (fun p => p.zip == o.zip)).map
      (fun p => p.rent))[j]? = some (none : Option ℚ) := by
    rw [List.getElem?_map, hgj, ho0og]
    show some og.rent = some none
    rw [hmiss]
  have hsl : j < (((parseStage (melt tbl)).filter (fun p => p.zip == o.zip)).map
      (fun p => p.rent)).length := by simpa using hjl
  have hv := ffillbfill_getElem?
    (((parseStage (melt tbl)).filter (fun p => p.zip == o.zip)).map (fun p => p.rent)) j hsl
  have hveq : v = olast
      (firstSome ((((parseStage (melt tbl)).filter (fun p => p.zip == o.zip)).map
        (fun p => p.rent)).drop (j + 1)))
      (lastSome ((((parseStage (melt tbl)).filter (fun p => p.zip == o.zip)).map
        (fun p => p.rent)).take (j + 1))) :=
    Option.some_inj.1 (hvj.symm.trans hv)
  have htake : ((((parseStage (melt tbl)).filter (fun p => p.zip == o.zip)).map
      (fun p => p.rent)).take (j + 1))
      = ((((parseStage (melt tbl)).filter (fun p => p.zip == o.zip)).map
        (fun p => p.rent)).take j) ++ [none] := by
    rw [List.take_succ, hsj]
    rfl
  have hlast : lastSome ((((parseStage (melt tbl)).filter (fun p => p.zip == o.zip)).map
      (fun p => p.rent)).take (j + 1))
      = lastSome ((((parseStage (melt tbl)).filter (fun p => p.zip == o.zip)).map
        (fun p => p.rent)).take j) := by
    rw [htake, lastSome_append_singleton, olast_none]
  obtain ⟨hbef, haft⟩ := sorted_filter_split hchron
    (show ((parseStage (melt tbl)).filter (fun p => p.zip == o.zip))[j]? = some og
      from ho0og ▸ hgj)
  have hob : o.rent = v := by rw [hxo]
  rw [hob, hveq, hlast, chronoExpected, ← hogd, hbef, haft,
    List.map_take, List.map_drop]

/-- Witness for the amended C4 at `tblA` (chronologically ordered columns):
February's missing value is filled with January's 5, as the chronological
rule predicts. -/
theorem C4_witness :
    (⟨7, ⟨12 * 2015 + 1, 28⟩, some 5⟩ : Obs) ∈ prepare_zillow_timeseries tblA 1 ∧
    (((parseStage (melt tblA)).filter (fun p => p.zip == 7)).map
      (fun p => p.date)).Pairwise dateLt ∧
    (⟨7, ⟨12 * 2015 + 1, 28⟩, none⟩ : Obs) ∈ parseStage (melt tblA) ∧
    some (5 : ℚ) = chronoExpected
      ((parseStage (melt tblA)).filter (fun p => p.zip == 7)) ⟨12 * 2015 + 1, 28⟩ :=
  ⟨by decide, by decide, by decide,
    C4_gap_fill_chronological_amended tblA 1 ⟨7, ⟨12 * 2015 + 1, 28⟩, some 5⟩
      (by decide) (by decide) ⟨7, ⟨12 * 2015 + 1, 28⟩, none⟩ (by decide) rfl rfl rfl⟩

end Pipeline
